import Mathlib

/-!
Shallow embedding of the movie-recommender service (`src/app.py`) and proofs
about its title resolver, recommendation ranker, search and load behavior.

Modelling conventions:
* Python floats (similarity scores, difflib ratios) are modelled as exact
  rationals (`Rat`, built with `mkRat`).  Every concrete score used below is
  exactly representable, and all comparisons in the source are order
  comparisons that agree with the exact-rational ones on these values.
* Python strings are `String` / `List Char`; `str.lower()` is modelled on the
  ASCII range (`Char.toLower`), which covers every title and query considered.
* The catalog DataFrame `movies_df` is a `List Movie` indexed by position,
  matching its default `RangeIndex` (row label = row position).
* Exceptions are modelled with `Option` / explicit error constructors.
-/

set_option maxRecDepth 1000000

namespace MovieRec

/-! ### Python string primitives -/

/-- Characters stripped by Python `str.strip()` (ASCII whitespace). -/
def isPySpace (c : Char) : Bool :=
  c == ' ' || c == '\t' || c == '\n' || c == '\r' || c == Char.ofNat 11 || c == Char.ofNat 12

/-- Python `str.strip()`: remove leading and trailing whitespace. -/
def pyStrip (s : List Char) : List Char :=
  ((s.dropWhile isPySpace).reverse.dropWhile isPySpace).reverse

/-- Python `str.lower()`, modelled on the ASCII range. -/
def pyLower (s : List Char) : List Char :=
  s.map Char.toLower

/-- Python string comparison: lexicographic on code points
(used by `heapq.nlargest` inside `difflib.get_close_matches` when ratios tie). -/
def pyStrLt : List Char → List Char → Bool
  | _, [] => false
  | [], _ :: _ => true
  | a :: as, b :: bs => decide (a.toNat < b.toNat) || (a == b && pyStrLt as bs)

/-! ### A fragment of Python regular-expression search

`pandas.Series.str.contains(pat)` defaults to `regex=True`, i.e. it runs
`re.search(pat, s)` (source lines 79 and 179).  We model `re.search` for the
fragment of patterns built from literal characters and the metacharacter `'.'`
(which matches any character except a newline); all other regex
metacharacters are outside the modelled fragment. -/

/-- Does the fragment pattern `pat` match a prefix of `s`?
Literal characters match themselves; `'.'` matches any character but `'\n'`. -/
def matchAt : List Char → List Char → Bool
  | [], _ => true
  | _ :: _, [] => false
  | p :: ps, c :: cs => (if p = '.' then c != '\n' else p == c) && matchAt ps cs

/-- `re.search(pat, s) is not None` for the modelled fragment:
the pattern matches starting at some position of `s`. -/
def reSearch (pat s : List Char) : Bool :=
  s.tails.any (fun t => matchAt pat t)

/-- Regex metacharacters of Python `re` (queries avoiding all of these are
matched purely literally, and are fully covered by the modelled fragment). -/
def isRegexMeta (c : Char) : Bool :=
  c == '.' || c == '^' || c == '$' || c == '*' || c == '+' || c == '?' ||
  c == '\\' || c == '[' || c == ']' || c == '|' || c == '(' || c == ')' ||
  c == Char.ofNat 123 || c == Char.ofNat 125

/-- Literal (non-regex) substring containment, the behavior the spec ascribes
to search and to resolver tier 2.  This is a spec-side reference definition,
compared against the source's regex-based matching. -/
def litContains (pat s : List Char) : Bool :=
  s.tails.any (fun t => pat.isPrefixOf t)

/-! ### difflib: `SequenceMatcher.ratio` and `get_close_matches`

Faithful model of CPython `difflib` for short strings.  `autojunk` only
affects sequences of length ≥ 200 and plays no role here; the `quick_ratio`
pre-filters in `get_close_matches` are upper bounds on `ratio` and therefore
do not change which candidates pass the cutoff. -/

/-- `a[i] == b[j]`, `false` when either index is out of range. -/
def charEq (a b : List Char) (i j : Nat) : Bool :=
  match a[i]?, b[j]?  with
  | some x, some y => x == y
  | _, _ => false

/-- Length of the common-character run of `a` and `b` ending exactly at
positions `i`, `j`, clipped to the window starting at `alo`, `blo`.  This is
the value `j2len[j]` maintained by `SequenceMatcher.find_longest_match`. -/
def runLen (a b : List Char) (alo blo : Nat) : Nat → Nat → Nat
  | 0, j => if charEq a b 0 j then 1 else 0
  | i+1, j =>
    if charEq a b (i+1) j then
      (if alo < i+1 && blo < j then runLen a b alo blo i (j-1) else 0) + 1
    else 0

/-- `SequenceMatcher.find_longest_match` on the window
`a[alo:ahi]`, `b[blo:bhi]` (no junk): returns `(besti, bestj, bestsize)`,
scanning `i` then `j` in increasing order and keeping the first strict
improvement, exactly as the CPython loop does.  The two junk-extension loops
of CPython are no-ops when there is no junk, since `runLen` is already the
maximal clipped run. -/
def findLongestMatch (a b : List Char) (alo ahi blo bhi : Nat) : Nat × Nat × Nat :=
  (List.range' alo (ahi - alo)).foldl (fun best i =>
    (List.range' blo (bhi - blo)).foldl (fun best j =>
      let k := runLen a b alo blo i j
      if best.2.2 < k then (i + 1 - k, j + 1 - k, k) else best) best) (alo, blo, 0)

/-- Total size of all matching blocks (`sum of sizes in get_matching_blocks`),
by the standard divide-and-conquer around the longest match.  `fuel` bounds
the recursion depth; every recursive call shrinks the window sum
`(ahi - alo) + (bhi - blo)` by at least one, so the top-level call in `ratio`
(fuel = `|a| + |b|`, the initial window sum) never exhausts it. -/
def matchTotalF (a b : List Char) : Nat → Nat → Nat → Nat → Nat → Nat
  | 0, _, _, _, _ => 0
  | fuel+1, alo, ahi, blo, bhi =>
    let r := findLongestMatch a b alo ahi blo bhi
    if r.2.2 = 0 then 0
    else matchTotalF a b fuel alo r.1 blo r.2.1 + r.2.2 +
         matchTotalF a b fuel (r.1 + r.2.2) ahi (r.2.1 + r.2.2) bhi

/-- `SequenceMatcher(None, a, b).ratio() = 2·M / (|a| + |b|)` where `M` is the
total matched size; two empty sequences have ratio 1 (`_calculate_ratio`). -/
def ratio (a b : List Char) : Rat :=
  if a.length + b.length = 0 then 1
  else mkRat (2 * (matchTotalF a b (a.length + b.length) 0 a.length 0 b.length))
             (a.length + b.length)

/-- The order `heapq.nlargest` uses on difflib score pairs `(ratio, word)`:
`a` may come before `b` iff `(ratio_b, word_b) ≤ (ratio_a, word_a)` in the
lexicographic tuple order (ratio first, then code-point string order). -/
def ratStrDescLe (a b : Rat × String) : Bool :=
  decide (b.1 < a.1) || (decide (a.1 = b.1) && !(pyStrLt a.2.data b.2.data))

/-! ### Stable insertion sort

Python's `sorted` and `heapq.nlargest` are stable.  `isort` is the classic
stable insertion sort: an element is placed before the first later-inserted
element it is `le`-related to, so ties keep their input order. -/

def insertLe {α : Type} (le : α → α → Bool) (x : α) : List α → List α
  | [] => [x]
  | y :: ys => if le x y then x :: y :: ys else y :: insertLe le x ys

def isort {α : Type} (le : α → α → Bool) : List α → List α
  | [] => []
  | x :: xs => insertLe le x (isort le xs)

/-- The `result` list of `get_close_matches`: each possibility `x` with
`ratio(x, word) ≥ cutoff`, paired as `(ratio, x)`, in input order
(`seq1` = possibility, `seq2` = word). -/
def gcmScored (word : String) (possibilities : List String) (cutoff : Rat) :
    List (Rat × String) :=
  possibilities.filterMap (fun x =>
    let r := ratio x.data word.data
    if cutoff ≤ r then some (r, x) else none)

/-- `difflib.get_close_matches(word, possibilities, n, cutoff)`:
score every possibility against `word`, keep those with `ratio ≥ cutoff`,
and return the `n` largest by `(ratio, word)` tuple order, largest first
(`heapq.nlargest`). -/
def getCloseMatches (word : String) (possibilities : List String) (n : Nat)
    (cutoff : Rat) : List String :=
  ((isort ratStrDescLe (gcmScored word possibilities cutoff)).take n).map (fun p => p.2)

/-! ### Data model and the service operations (`src/app.py`) -/

/-- One catalog row of `movies_df` (columns `movie_id`, `title`); the row
position is the join key into the similarity matrix. -/
structure Movie where
  movie_id : Int
  title : String
deriving DecidableEq

/-- First row (by position) satisfying a predicate, together with its
position: pandas boolean filtering preserves row order, so
`df[mask].index[0]` / `.iloc[0]` is exactly this row. -/
def firstWithIdx {α : Type} (p : α → Bool) : List α → Option (Nat × α)
  | [] => none
  | m :: ms => if p m then some (0, m) else (firstWithIdx p ms).map (fun r => (r.1 + 1, r.2))

/-- Outcome of `find_best_movie_match`: a resolved row index with the matched
stored title, the unresolved case carrying suggestions, or the (unreachable)
`IndexError` raised if a fuzzy-matched title were absent from the catalog. -/
inductive MatchResult where
  | resolved (index : Nat) (matchedTitle : String)
  | unresolved (suggestions : List String)
  | lookupError
deriving DecidableEq

/-- `find_best_movie_match(title, movies_df)` (source lines 62-99):
tier 1 exact match on lowered titles against the lowered, stripped query;
tier 2 `str.contains` (regex search) of the same query in lowered titles;
tier 3 `difflib.get_close_matches` with `n=1, cutoff=0.6` on the raw query,
resolved back to the first row carrying the matched title; otherwise
suggestions from `get_close_matches` with `n=5, cutoff=0.3`. -/
def findBestMovieMatch (title : String) (cat : List Movie) : MatchResult :=
  let tl := pyStrip (pyLower title.data)
  match firstWithIdx (fun m => pyLower m.title.data == tl) cat with
  | some (i, m) => .resolved i m.title
  | none =>
    match firstWithIdx (fun m => reSearch tl (pyLower m.title.data)) cat with
    | some (i, m) => .resolved i m.title
    | none =>
      let allTitles := cat.map (fun m => m.title)
      match getCloseMatches title allTitles 1 (mkRat 3 5) with
      | mt :: _ =>
        match firstWithIdx (fun m => m.title == mt) cat with
        | some (i, _) => .resolved i mt
        | none => .lookupError
      | [] => .unresolved (getCloseMatches title allTitles 5 (mkRat 3 10))

/-- The order `sorted(..., reverse=True, key=lambda x: x[1])` establishes on
`(column, score)` pairs.  Python's sort is stable and the input
(`enumerate(distances)`) has strictly increasing column indices, so the
stable descending sort by score coincides with sorting by this total order:
score descending, ties by ascending column index. -/
def scoreDescLe (a b : Nat × Rat) : Bool :=
  decide (b.2 < a.2) || (decide (a.2 = b.2) && decide (a.1 ≤ b.1))

/-- `sorted(list(enumerate(distances)), reverse=True, key=lambda x: x[1])`. -/
def pySortDesc (l : List (Nat × Rat)) : List (Nat × Rat) :=
  isort scoreDescLe l

/-- Python list slice `l[start:stop]` with full negative-index semantics. -/
def pySlice {α : Type} (l : List α) (start stop : Int) : List α :=
  let n := l.length
  let norm := fun (i : Int) => ((if i < 0 then n + i else i).toNat).min n
  (l.take (norm stop)).drop (norm start)

/-- A single-quote character as a string (code point 39), used by the 404
error message `Movie <q> not found` which wraps the query in single quotes. -/
def squote : String := ⟨[Char.ofNat 39]⟩

/-- One entry of the `recommendations` response array. -/
structure Recommendation where
  movie_id : Int
  title : String
  similarity_score : Rat
deriving DecidableEq

/-- Outcome of the `/recommend` handler: HTTP 500 `"Model not loaded"`,
HTTP 404 with suggestions, HTTP 200 with the payload, or the generic
HTTP 500 produced by the `except Exception` boundary. -/
inductive RecommendResult where
  | notLoadedErr
  | notFound (error : String) (suggestions : List String)
  | ok (matched : String) (recommendations : List Recommendation)
  | internalErr
deriving DecidableEq

/-- `POST /recommend` body (`RecommendationRequest`): a pydantic `int` field,
so any integer — including non-positive ones — is accepted. -/
structure RecommendationRequest where
  movie_title : String
  num_recommendations : Int := 5
deriving DecidableEq

/-- Build the response records from the sliced `(column, score)` pairs:
`movies_df.iloc[i]` for each pair; an out-of-range `iloc` raises
(`IndexError`), modelled as `none`. -/
def buildRecs (cat : List Movie) : List (Nat × Rat) → Option (List Recommendation)
  | [] => some []
  | (i, score) :: rest =>
    match cat[i]?, buildRecs cat rest with
    | some m, some rs => some (⟨m.movie_id, m.title, score⟩ :: rs)
    | _, _ => none

/-- `recommend_movies` (source lines 101-157).  The handler first checks the
load guard, then resolves the title; an unresolved title becomes a 404
carrying `suggestions[:5]`; otherwise `similarity[movie_index]` is read
(an out-of-range index raises and is caught by the generic handler), the
scored columns are sorted descending and sliced `[1 : num + 1]`, and the
surviving columns are mapped through the catalog. -/
def recommendMovies (movies_df : Option (List Movie))
    (similarity : Option (List (List Rat))) (request : RecommendationRequest) :
    RecommendResult :=
  match movies_df, similarity with
  | some cat, some sim =>
    match findBestMovieMatch request.movie_title cat with
    | .unresolved suggestions =>
      .notFound ("Movie " ++ squote ++ request.movie_title ++ squote ++ " not found")
        (suggestions.take 5)
    | .lookupError => .internalErr
    | .resolved movie_index matched_title =>
      match sim[movie_index]? with
      | none => .internalErr
      | some distances =>
        let movies_list :=
          pySlice (pySortDesc distances.enum) 1 (request.num_recommendations + 1)
        match buildRecs cat movies_list with
        | none => .internalErr
        | some recommendations => .ok matched_title recommendations
  | _, _ => .notLoadedErr

/-- `GET /search` response (`query`, `results` as `(movie_id, title)` records,
`total_found`). -/
structure SearchResult where
  query : String
  results : List (Int × String)
  total_found : Nat
deriving DecidableEq

/-- `search_movies` (source lines 172-188) on a loaded catalog: filter rows
whose lowered title matches the lowered query via `str.contains`
(regex search), then `head(limit)` of the `movie_id`/`title` columns. -/
def searchMovies (cat : List Movie) (query : String) (limit : Nat) : SearchResult :=
  let found := cat.filter (fun m => reSearch (pyLower query.data) (pyLower m.title.data))
  { query := query
    results := (found.take limit).map (fun m => (m.movie_id, m.title))
    total_found := found.length }

/-- The module-level load block (source lines 22-31): either both pickles
deserialize and both globals are set — with no validation of any kind, in
particular no shape check — or the exception handler leaves both `None`. -/
def loadArtifacts (pickles : Option (List Movie × List (List Rat))) :
    Option (List Movie) × Option (List (List Rat)) :=
  match pickles with
  | some (m, s) => (some m, some s)
  | none => (none, none)

/-! ### Concrete instances used by the scenario proofs -/

/-- The spec scenario catalog: `[{1,"Avatar"},{2,"Titanic"},{3,"Inception"}]`. -/
def cat3 : List Movie := [⟨1, "Avatar"⟩, ⟨2, "Titanic"⟩, ⟨3, "Inception"⟩]

/-- A symmetric similarity matrix with row 0 = `[1.0, 0.2, 0.5]`
(0.2 = 1/5, 0.5 = 1/2, 0.3 = 3/10, all exactly representable). -/
def sim3 : List (List Rat) :=
  [[1, mkRat 1 5, mkRat 1 2],
   [mkRat 1 5, 1, mkRat 3 10],
   [mkRat 1 2, mkRat 3 10, 1]]

/-- A two-movie catalog. -/
def cat2 : List Movie := [⟨1, "A"⟩, ⟨2, "B"⟩]

/-- A symmetric similarity matrix whose rows are constant 1.0: every diagonal
entry is a (non-strict) maximum of its row, yet not the first entry the
descending sort places at the front for row 1. -/
def sim2 : List (List Rat) := [[1, 1], [1, 1]]

/-- Spec-side predicate: catalog row `i` is a tier-1 (exact, case-insensitive)
match for the normalized query `tl`. -/
def exactMatchP (cat : List Movie) (tl : List Char) (i : Nat) : Prop :=
  ∃ m, cat[i]? = some m ∧ pyLower m.title.data = tl

/-- Spec-side predicate: catalog row `i` is a tier-2 (contains) match for the
normalized query `tl` (as the source implements it: regex search). -/
def subMatchP (cat : List Movie) (tl : List Char) (i : Nat) : Prop :=
  ∃ m, cat[i]? = some m ∧ reSearch tl (pyLower m.title.data) = true

/-! ### Lemmas about the stable insertion sort -/

theorem insertLe_perm {α : Type} (le : α → α → Bool) (x : α) (l : List α) :
    (insertLe le x l).Perm (x :: l) := by
  induction l with
  | nil => simp [insertLe]
  | cons y ys ih =>
    simp only [insertLe]
    by_cases h : le x y = true
    · simp [h]
    · simp only [h, if_false]
      exact ((ih.cons y).trans (List.Perm.swap x y ys)).symm.symm

theorem isort_perm {α : Type} (le : α → α → Bool) (l : List α) :
    (isort le l).Perm l := by
  induction l with
  | nil => simp [isort]
  | cons x xs ih => exact (insertLe_perm le x (isort le xs)).trans (ih.cons x)

theorem mem_insertLe {α : Type} {le : α → α → Bool} {x y : α} {l : List α} :
    y ∈ insertLe le x l ↔ y = x ∨ y ∈ l := by
  rw [(insertLe_perm le x l).mem_iff]; simp

theorem insertLe_pairwise {α : Type} {le : α → α → Bool}
    (htot : ∀ a b, le a b = true ∨ le b a = true)
    (htr : ∀ a b c, le a b = true → le b c = true → le a c = true)
    {x : α} {l : List α} (hl : l.Pairwise (fun a b => le a b = true)) :
    (insertLe le x l).Pairwise (fun a b => le a b = true) := by
  induction l with
  | nil => simp [insertLe]
  | cons y ys ih =>
    rcases List.pairwise_cons.mp hl with ⟨hy, hys⟩
    simp only [insertLe]
    by_cases h : le x y = true
    · simp only [h, if_true]
      refine List.pairwise_cons.mpr ⟨?_, hl⟩
      intro b hb
      rcases List.mem_cons.mp hb with hb | hb
      · exact hb ▸ h
      · exact htr x y b h (hy b hb)
    · simp only [h, if_false]
      refine List.pairwise_cons.mpr ⟨?_, ih hys⟩
      intro b hb
      rcases mem_insertLe.mp hb with hb | hb
      · rcases htot x y with h1 | h1
        · exact absurd h1 h
        · exact hb ▸ h1
      · exact hy b hb

theorem isort_pairwise {α : Type} {le : α → α → Bool}
    (htot : ∀ a b, le a b = true ∨ le b a = true)
    (htr : ∀ a b c, le a b = true → le b c = true → le a c = true)
    (l : List α) :
    (isort le l).Pairwise (fun a b => le a b = true) := by
  induction l with
  | nil => simp [isort]
  | cons x xs ih => exact insertLe_pairwise htot htr ih

/-! ### Lemmas about `firstWithIdx` -/

theorem firstWithIdx_eq_none {α : Type} {p : α → Bool} {l : List α} :
    firstWithIdx p l = none ↔ ∀ m ∈ l, p m = false := by
  induction l with
  | nil => simp [firstWithIdx]
  | cons x xs ih =>
    cases hpx : p x with
    | true => simp [firstWithIdx, hpx]
    | false =>
      simp only [firstWithIdx, hpx, Bool.false_eq_true, if_false, Option.map_eq_none',
        List.mem_cons]
      constructor
      · intro hn m hm
        rcases hm with hm | hm
        · exact hm ▸ hpx
        · exact (ih.mp hn) m hm
      · intro hall
        exact ih.mpr (fun m hm => hall m (Or.inr hm))

theorem firstWithIdx_eq_some {α : Type} {p : α → Bool} {l : List α} {i : Nat} {m : α} :
    firstWithIdx p l = some (i, m) →
    l[i]? = some m ∧ p m = true ∧ ∀ j, j < i → ∀ m', l[j]? = some m' → p m' = false := by
  induction l generalizing i with
  | nil => intro h; simp [firstWithIdx] at h
  | cons x xs ih =>
    intro h
    cases hpx : p x with
    | true =>
      simp only [firstWithIdx, hpx, if_true, Option.some.injEq, Prod.mk.injEq] at h
      obtain ⟨hi, hm⟩ := h
      subst hi; subst hm
      refine ⟨by simp, hpx, ?_⟩
      intro j hj; omega
    | false =>
      simp only [firstWithIdx, hpx, Bool.false_eq_true, if_false] at h
      rcases hr : firstWithIdx p xs with _ | r
      · rw [hr] at h; simp at h
      · obtain ⟨i', m'⟩ := r
        rw [hr] at h
        simp only [Option.map_some', Option.some.injEq, Prod.mk.injEq] at h
        obtain ⟨hi, hm⟩ := h
        subst hi; subst hm
        obtain ⟨h1, h2, h3⟩ := ih hr
        refine ⟨by simpa using h1, h2, ?_⟩
        intro j hj m'' hget
        match j with
        | 0 =>
          simp only [List.getElem?_cons_zero, Option.some.injEq] at hget
          exact hget ▸ hpx
        | j + 1 =>
          simp only [List.getElem?_cons_succ] at hget
          exact h3 j (by omega) m'' hget

theorem firstWithIdx_isSome {α : Type} {p : α → Bool} {l : List α} {m : α}
    (hm : m ∈ l) (hp : p m = true) :
    ∃ i m', firstWithIdx p l = some (i, m') := by
  rcases h : firstWithIdx p l with _ | r
  · rw [firstWithIdx_eq_none] at h
    rw [h m hm] at hp; exact absurd hp (by simp)
  · exact ⟨r.1, r.2, by simp⟩

/-! ### `pyStrLt` is a strict linear order -/

theorem pyStrLt_irrefl (a : List Char) : pyStrLt a a = false := by
  induction a with
  | nil => rfl
  | cons c cs ih => simp [pyStrLt, ih]

theorem pyStrLt_asymm : ∀ {a b : List Char}, pyStrLt a b = true → pyStrLt b a = false
  | _, [], h => by simp [pyStrLt] at h
  | [], _ :: _, _ => rfl
  | a :: as, b :: bs, h => by
    simp only [pyStrLt, Bool.or_eq_true, decide_eq_true_eq, Bool.and_eq_true,
      beq_iff_eq] at h ⊢
    rcases h with h | ⟨hab, h⟩
    · simp only [Bool.or_eq_false_iff, decide_eq_false_iff_not, Bool.and_eq_false_iff]
      refine ⟨by omega, Or.inl ?_⟩
      simp only [beq_eq_false_iff_ne, ne_eq]
      intro hba; subst hba; omega
    · subst hab
      simp [pyStrLt_asymm h, pyStrLt_irrefl]

theorem pyStrLt_trans : ∀ {a b c : List Char},
    pyStrLt a b = true → pyStrLt b c = true → pyStrLt a c = true
  | _, _, [], _, h2 => by simp [pyStrLt] at h2
  | _, [], _ :: _, h1, _ => by simp [pyStrLt] at h1
  | [], _ :: _, _ :: _, _, _ => rfl
  | a :: as, b :: bs, c :: cs, h1, h2 => by
    simp only [pyStrLt, Bool.or_eq_true, decide_eq_true_eq, Bool.and_eq_true,
      beq_iff_eq] at h1 h2 ⊢
    rcases h1 with h1 | ⟨hab, h1⟩ <;> rcases h2 with h2 | ⟨hbc, h2⟩
    · exact Or.inl (by omega)
    · subst hbc; exact Or.inl h1
    · subst hab; exact Or.inl h2
    · subst hab; subst hbc; exact Or.inr ⟨rfl, pyStrLt_trans h1 h2⟩

theorem pyStrLt_connex : ∀ {a b : List Char},
    a ≠ b → pyStrLt a b = true ∨ pyStrLt b a = true
  | [], [], h => absurd rfl h
  | [], _ :: _, _ => Or.inl rfl
  | _ :: _, [], _ => Or.inr rfl
  | a :: as, b :: bs, h => by
    simp only [pyStrLt, Bool.or_eq_true, decide_eq_true_eq, Bool.and_eq_true,
      beq_iff_eq]
    by_cases hab : a = b
    · subst hab
      have : as ≠ bs := fun hh => h (by rw [hh])
      rcases pyStrLt_connex this with h1 | h1
      · exact Or.inl (Or.inr ⟨rfl, h1⟩)
      · exact Or.inr (Or.inr ⟨rfl, h1⟩)
    · have hne : a.toNat ≠ b.toNat := by
        intro hv
        exact hab (by simpa [Char.ofNat_toNat] using congrArg Char.ofNat hv)
      rcases Nat.lt_or_ge a.toNat b.toNat with h1 | h1
      · exact Or.inl (Or.inl h1)
      · exact Or.inr (Or.inl (by omega))

/-- Not-less-than is transitive for `pyStrLt` (used for sort transitivity). -/
theorem pyStrLt_nlt_trans {a b c : List Char}
    (h1 : pyStrLt a b = false) (h2 : pyStrLt b c = false) : pyStrLt a c = false := by
  by_contra h
  have hac : pyStrLt a c = true := by
    cases hv : pyStrLt a c
    · exact absurd hv h
    · rfl
  by_cases hab : a = b
  · subst hab; rw [hac] at h2; cases h2
  · rcases pyStrLt_connex hab with h3 | h3
    · rw [h3] at h1; cases h1
    · have := pyStrLt_trans h3 hac
      rw [this] at h2; cases h2

/-! ### The two sort orders are total and transitive -/

theorem scoreDescLe_total (a b : Nat × Rat) :
    scoreDescLe a b = true ∨ scoreDescLe b a = true := by
  simp only [scoreDescLe, Bool.or_eq_true, decide_eq_true_eq, Bool.and_eq_true]
  rcases lt_trichotomy a.2 b.2 with h | h | h
  · exact Or.inr (Or.inl h)
  · rcases Nat.le_total a.1 b.1 with h1 | h1
    · exact Or.inl (Or.inr ⟨h, h1⟩)
    · exact Or.inr (Or.inr ⟨h.symm, h1⟩)
  · exact Or.inl (Or.inl h)

theorem scoreDescLe_trans (a b c : Nat × Rat)
    (h1 : scoreDescLe a b = true) (h2 : scoreDescLe b c = true) :
    scoreDescLe a c = true := by
  simp only [scoreDescLe, Bool.or_eq_true, decide_eq_true_eq, Bool.and_eq_true] at h1 h2 ⊢
  rcases h1 with h1 | ⟨he1, hi1⟩ <;> rcases h2 with h2 | ⟨he2, hi2⟩
  · exact Or.inl (h2.trans h1)
  · exact Or.inl (he2 ▸ h1)
  · exact Or.inl (he1 ▸ h2)
  · exact Or.inr ⟨he1.trans he2, hi1.trans hi2⟩

theorem ratStrDescLe_total (a b : Rat × String) :
    ratStrDescLe a b = true ∨ ratStrDescLe b a = true := by
  simp only [ratStrDescLe, Bool.or_eq_true, decide_eq_true_eq, Bool.and_eq_true,
    Bool.not_eq_true']
  rcases lt_trichotomy a.1 b.1 with h | h | h
  · exact Or.inr (Or.inl h)
  · by_cases hs : a.2.data = b.2.data
    · exact Or.inl (Or.inr ⟨h, by rw [hs, pyStrLt_irrefl]⟩)
    · rcases pyStrLt_connex hs with h1 | h1
      · exact Or.inr (Or.inr ⟨h.symm, pyStrLt_asymm h1⟩)
      · exact Or.inl (Or.inr ⟨h, pyStrLt_asymm h1⟩)
  · exact Or.inl (Or.inl h)

theorem ratStrDescLe_trans (a b c : Rat × String)
    (h1 : ratStrDescLe a b = true) (h2 : ratStrDescLe b c = true) :
    ratStrDescLe a c = true := by
  simp only [ratStrDescLe, Bool.or_eq_true, decide_eq_true_eq, Bool.and_eq_true,
    Bool.not_eq_true'] at h1 h2 ⊢
  rcases h1 with h1 | ⟨he1, hs1⟩ <;> rcases h2 with h2 | ⟨he2, hs2⟩
  · exact Or.inl (h2.trans h1)
  · exact Or.inl (he2 ▸ h1)
  · exact Or.inl (he1 ▸ h2)
  · exact Or.inr ⟨he1.trans he2, pyStrLt_nlt_trans hs1 hs2⟩

theorem ratStrDescLe_refl (a : Rat × String) : ratStrDescLe a a = true := by
  simp [ratStrDescLe, pyStrLt_irrefl]

/-! ### Lemmas about `pySlice` -/

theorem natMin_eq_left {a b : Nat} (h : a ≤ b) : Nat.min a b = a :=
  min_eq_left h

theorem natMin_eq_right {a b : Nat} (h : b ≤ a) : Nat.min a b = b :=
  min_eq_right h

theorem pySlice_one_succ {α : Type} (l : List α) (n : Nat) :
    pySlice l 1 ((n : Int) + 1) = (l.drop 1).take n := by
  simp only [pySlice]
  have h1 : ¬ ((n : Int) + 1 < 0) := by omega
  have h0 : ¬ ((1 : Int) < 0) := by omega
  simp only [h1, h0, if_false]
  have ht : ((n : Int) + 1).toNat = n + 1 := by omega
  have ht1 : ((1 : Int)).toNat = 1 := by omega
  rw [ht, ht1]
  rcases Nat.eq_zero_or_pos l.length with hz | hpos
  · rw [List.length_eq_zero.mp hz]; simp
  · rw [natMin_eq_left hpos]
    have : l.take (Nat.min (n + 1) l.length) = l.take (n + 1) := by
      rcases Nat.le_total (n + 1) l.length with hc | hc
      · rw [natMin_eq_left hc]
      · rw [natMin_eq_right hc, List.take_length, List.take_of_length_le hc]
    rw [this, List.drop_take, Nat.add_sub_cancel]

theorem pySlice_all {α : Type} (l : List α) (k : Int)
    (h : (l.length : Int) ≤ k) : pySlice l 1 (k + 1) = l.drop 1 := by
  simp only [pySlice]
  have h1 : ¬ (k + 1 < 0) := by omega
  have h0 : ¬ ((1 : Int) < 0) := by omega
  simp only [h1, h0, if_false]
  have ht : Nat.min (k + 1).toNat l.length = l.length :=
    natMin_eq_right (by omega)
  have ht1 : ((1 : Int)).toNat = 1 := by omega
  rw [ht, ht1, List.take_length]
  rcases Nat.eq_zero_or_pos l.length with hz | hpos
  · rw [List.length_eq_zero.mp hz]; simp
  · rw [natMin_eq_left hpos]

theorem pySlice_stop_zero {α : Type} (l : List α) : pySlice l 1 0 = [] := by
  simp [pySlice]

theorem pySlice_stop_one {α : Type} (l : List α) : pySlice l 1 1 = [] := by
  simp only [pySlice]
  have h0 : ¬ ((1 : Int) < 0) := by omega
  simp only [h0, if_false]
  have ht1 : ((1 : Int)).toNat = 1 := by omega
  rw [ht1, List.drop_take]
  simp

theorem pySlice_neg {α : Type} (l : List α) (k : Int) (hk : k + 1 < 0)
    (hlo : 0 ≤ (l.length : Int) + k + 1) :
    pySlice l 1 (k + 1) = (l.take ((l.length : Int) + k + 1).toNat).drop 1 := by
  simp only [pySlice]
  have h0 : ¬ ((1 : Int) < 0) := by omega
  simp only [hk, if_true, h0, if_false]
  have ht : Nat.min ((l.length : Int) + (k + 1)).toNat l.length =
      ((l.length : Int) + k + 1).toNat := by
    have hle : ((l.length : Int) + (k + 1)).toNat ≤ l.length := by omega
    rw [natMin_eq_left hle]; omega
  have ht1 : ((1 : Int)).toNat = 1 := by omega
  rw [ht, ht1]
  rcases Nat.eq_zero_or_pos l.length with hz | hpos
  · rw [List.length_eq_zero.mp hz]; simp
  · rw [natMin_eq_left hpos]

/-! ### Lemmas about `enum`, `buildRecs`, `gcmScored`, `getCloseMatches` -/

theorem enum_nodup {α : Type} (l : List α) : l.enum.Nodup :=
  List.Nodup.of_map Prod.fst (by rw [List.enum_map_fst]; exact List.nodup_range _)

theorem enum_fst_eq {α : Type} {l : List α} {p q : Nat × α}
    (hp : p ∈ l.enum) (hq : q ∈ l.enum) (h : p.1 = q.1) : p = q := by
  rw [List.mem_enum_iff_getElem?] at hp hq
  obtain ⟨i, a⟩ := p
  obtain ⟨j, b⟩ := q
  simp only at h
  subst h
  rw [hp] at hq
  have hab : a = b := by simpa using hq
  rw [hab]

theorem buildRecs_eq_some {cat : List Movie} :
    ∀ {pairs : List (Nat × Rat)}, (∀ p ∈ pairs, p.1 < cat.length) →
    ∃ recs, buildRecs cat pairs = some recs ∧ recs.length = pairs.length := by
  intro pairs
  induction pairs with
  | nil => intro _; exact ⟨[], rfl, rfl⟩
  | cons hd tl ih =>
    intro hall
    obtain ⟨i, score⟩ := hd
    have hi : i < cat.length := hall (i, score) (List.mem_cons_self _ _)
    obtain ⟨recs, hb, hlen⟩ := ih (fun p hp => hall p (List.mem_cons_of_mem _ hp))
    refine ⟨⟨cat[i].movie_id, cat[i].title, score⟩ :: recs, ?_, by simp [hlen]⟩
    simp only [buildRecs, List.getElem?_eq_getElem hi, hb]

theorem mem_gcmScored {word : String} {poss : List String} {cutoff : Rat}
    {p : Rat × String} :
    p ∈ gcmScored word poss cutoff ↔
      ∃ x ∈ poss, cutoff ≤ ratio x.data word.data ∧ p = (ratio x.data word.data, x) := by
  simp only [gcmScored, List.mem_filterMap]
  constructor
  · rintro ⟨x, hx, hfx⟩
    by_cases hc : cutoff ≤ ratio x.data word.data
    · simp only [hc, if_true, Option.some.injEq] at hfx
      exact ⟨x, hx, hc, hfx.symm⟩
    · simp [hc] at hfx
  · rintro ⟨x, hx, hc, hp⟩
    exact ⟨x, hx, by simp [hc, hp]⟩

theorem gcm_length (word : String) (poss : List String) (n : Nat) (cutoff : Rat) :
    (getCloseMatches word poss n cutoff).length ≤ n := by
  simp only [getCloseMatches, List.length_map, List.length_take]
  omega

theorem gcm_mem {word : String} {poss : List String} {n : Nat} {cutoff : Rat}
    {t : String} (h : t ∈ getCloseMatches word poss n cutoff) :
    t ∈ poss ∧ cutoff ≤ ratio t.data word.data := by
  simp only [getCloseMatches, List.mem_map] at h
  obtain ⟨p, hp, hpt⟩ := h
  have hp1 : p ∈ isort ratStrDescLe (gcmScored word poss cutoff) :=
    (List.take_sublist _ _).subset hp
  have hp2 : p ∈ gcmScored word poss cutoff :=
    (isort_perm _ _).mem_iff.mp hp1
  obtain ⟨x, hx, hc, hpx⟩ := mem_gcmScored.mp hp2
  have : x = t := by rw [hpx] at hpt; exact hpt
  subst this
  exact ⟨hx, hc⟩

theorem gcm_sorted (word : String) (poss : List String) (n : Nat) (cutoff : Rat) :
    (getCloseMatches word poss n cutoff).Pairwise
      (fun t u => ratio u.data word.data ≤ ratio t.data word.data) := by
  have hs : (isort ratStrDescLe (gcmScored word poss cutoff)).Pairwise
      (fun a b => ratStrDescLe a b = true) :=
    isort_pairwise ratStrDescLe_total ratStrDescLe_trans _
  have ht := hs.sublist (List.take_sublist n _)
  rw [getCloseMatches, List.pairwise_map]
  refine ht.imp_of_mem ?_
  intro a b ha hb hle
  have hma : a ∈ gcmScored word poss cutoff :=
    (isort_perm _ _).mem_iff.mp ((List.take_sublist _ _).subset ha)
  have hmb : b ∈ gcmScored word poss cutoff :=
    (isort_perm _ _).mem_iff.mp ((List.take_sublist _ _).subset hb)
  obtain ⟨x, _, _, hax⟩ := mem_gcmScored.mp hma
  obtain ⟨y, _, _, hby⟩ := mem_gcmScored.mp hmb
  subst hax; subst hby
  simp only [ratStrDescLe, Bool.or_eq_true, decide_eq_true_eq, Bool.and_eq_true] at hle
  rcases hle with hle | ⟨hle, _⟩
  · exact le_of_lt hle
  · exact le_of_eq hle.symm

theorem gcm_head {word : String} {poss : List String} {n : Nat} {cutoff : Rat}
    {mt : String} {rest : List String}
    (h : getCloseMatches word poss n cutoff = mt :: rest) :
    mt ∈ poss ∧ cutoff ≤ ratio mt.data word.data ∧
      ∀ t ∈ poss, cutoff ≤ ratio t.data word.data →
        ratStrDescLe (ratio mt.data word.data, mt) (ratio t.data word.data, t) = true := by
  have hmem : mt ∈ getCloseMatches word poss n cutoff := by rw [h]; simp
  obtain ⟨hposs, hcut⟩ := gcm_mem hmem
  refine ⟨hposs, hcut, ?_⟩
  -- the head of the n-largest list is the head of the full sorted list
  rcases hsort : isort ratStrDescLe (gcmScored word poss cutoff) with _ | ⟨p, ps⟩
  · rw [getCloseMatches, hsort] at h; simp at h
  · have hn : 1 ≤ n := by
      by_contra hn
      have : n = 0 := by omega
      rw [getCloseMatches, this] at h; simp at h
    have hp2 : p.2 = mt := by
      rw [getCloseMatches, hsort] at h
      rcases n with _ | n
      · omega
      · simp only [List.take_succ_cons, List.map_cons, List.cons.injEq] at h
        exact h.1
    have hpmem : p ∈ gcmScored word poss cutoff :=
      (isort_perm _ _).mem_iff.mp (by rw [hsort]; simp)
    obtain ⟨x, _, _, hpx⟩ := mem_gcmScored.mp hpmem
    have hpform : p = (ratio mt.data word.data, mt) := by
      rw [hpx]; rw [hpx] at hp2; simp only at hp2; rw [hp2]
    have hsorted : (p :: ps).Pairwise (fun a b => ratStrDescLe a b = true) := by
      rw [← hsort]; exact isort_pairwise ratStrDescLe_total ratStrDescLe_trans _
    intro t ht hct
    have htm : (ratio t.data word.data, t) ∈ gcmScored word poss cutoff :=
      mem_gcmScored.mpr ⟨t, ht, hct, rfl⟩
    have htm2 : (ratio t.data word.data, t) ∈ p :: ps := by
      rw [← hsort]; exact (isort_perm _ _).mem_iff.mpr htm
    rcases List.mem_cons.mp htm2 with heq | htl
    · rw [← hpform, ← heq]
      exact ratStrDescLe_refl _
    · rw [← hpform]
      exact (List.pairwise_cons.mp hsorted).1 _ htl

/-! ### Derived sortedness of the ranking order -/

/-- The descending score sort of an enumerated row is pairwise ordered by
strictly decreasing score, with equal scores ordered by strictly ascending
column index (indices in an enumeration are distinct). -/
theorem pySortDesc_pairwise (row : List Rat) :
    (pySortDesc row.enum).Pairwise
      (fun a b => b.2 < a.2 ∨ (a.2 = b.2 ∧ a.1 < b.1)) := by
  have hp := isort_pairwise scoreDescLe_total scoreDescLe_trans row.enum
  have hnd : (pySortDesc row.enum).Nodup :=
    ((isort_perm scoreDescLe row.enum).nodup_iff).mpr (enum_nodup row)
  have hcomb := List.Pairwise.and hp hnd
  refine hcomb.imp_of_mem ?_
  intro a b ha hb hab
  obtain ⟨hle, hne⟩ := hab
  have ha2 : a ∈ row.enum := (isort_perm scoreDescLe row.enum).mem_iff.mp ha
  have hb2 : b ∈ row.enum := (isort_perm scoreDescLe row.enum).mem_iff.mp hb
  simp only [scoreDescLe, Bool.or_eq_true, decide_eq_true_eq, Bool.and_eq_true] at hle
  rcases hle with h | ⟨he, hi⟩
  · exact Or.inl h
  · refine Or.inr ⟨he, ?_⟩
    have hfst : a.1 ≠ b.1 := fun h1 => hne (enum_fst_eq ha2 hb2 h1)
    omega

/-! ### Claim theorems -/

/-- **C2.** For the concrete catalog `[{1,Avatar},{2,Titanic},{3,Inception}]`
with symmetric similarity row 0 = `[1.0, 0.2, 0.5]`, the recommend request
`{movie_title := "avatar", num_recommendations := 2}` succeeds with matched
movie `"Avatar"` and recommendations exactly
`[{3, Inception, 0.5}, {2, Titanic, 0.2}]`, in that order. -/
theorem C2_avatar_scenario :
    recommendMovies (some cat3) (some sim3) ⟨"avatar", 2⟩ =
      .ok "Avatar" [⟨3, "Inception", mkRat 1 2⟩, ⟨2, "Titanic", mkRat 1 5⟩] := by
  decide

/-- **C4.** For every matrix row and count `n`, the ranked pair list is the
slice `[1 : n+1]` of the descending sort of the enumerated row — i.e. the
sorted sequence with its first entry dropped, truncated to the next `n`
entries — and it is sorted by non-increasing score with equal scores ordered
by strictly ascending column index. -/
theorem C4_rank_sorted_desc (distances : List Rat) (n : Nat) :
    pySlice (pySortDesc distances.enum) 1 ((n : Int) + 1) =
      ((pySortDesc distances.enum).drop 1).take n ∧
    (pySlice (pySortDesc distances.enum) 1 ((n : Int) + 1)).Pairwise
      (fun a b => b.2 < a.2 ∨ (a.2 = b.2 ∧ a.1 < b.1)) := by
  refine ⟨pySlice_one_succ _ n, ?_⟩
  rw [pySlice_one_succ]
  exact (pySortDesc_pairwise distances).sublist
    ((List.take_sublist _ _).trans (List.drop_sublist _ _))

/-- **C1 (counterexample).** The claim as stated fails: the ranker drops the
first entry of the sorted sequence, not the row of the queried movie.  With
catalog `cat2` and the all-ones (symmetric, diagonal-maximal) matrix `sim2`,
the query `"b"` resolves to row 1, yet the single recommendation returned for
`n = 1 < 2 = catalog.size` is movie `{2, B}` — the movie at row 1 itself. -/
theorem C1_self_recommended_on_tied_row :
    findBestMovieMatch "b" cat2 = .resolved 1 "B" ∧
    cat2[1]? = some ⟨2, "B"⟩ ∧
    recommendMovies (some cat2) (some sim2) ⟨"b", 1⟩ = .ok "B" [⟨2, "B", 1⟩] := by
  decide

/-- **C1 (amended).** If the resolved row's self-similarity is *strictly*
greater than every other score in its row, the ranked list for that row never
contains the row's own column index, for every count `n`. -/
theorem C1_rank_excludes_self_of_strict_max (row : List Rat) (idx : Nat)
    (v : Rat) (n : Nat) (hv : row[idx]? = some v)
    (hmax : ∀ j w, row[j]? = some w → j ≠ idx → w < v) :
    ∀ p ∈ pySlice (pySortDesc row.enum) 1 ((n : Int) + 1), p.1 ≠ idx := by
  rw [pySlice_one_succ]
  intro p hp hpidx
  have hp1 : p ∈ (pySortDesc row.enum).drop 1 := (List.take_sublist _ _).subset hp
  have hperm : (pySortDesc row.enum).Perm row.enum := isort_perm _ _
  rcases hs : pySortDesc row.enum with _ | ⟨h, t⟩
  · rw [hs] at hp1; simp at hp1
  · rw [hs] at hp1 hperm
    simp only [List.drop_succ_cons, List.drop_zero] at hp1
    -- p is in the tail and has first component idx, so p = (idx, v)
    have hpmem : p ∈ row.enum := hperm.mem_iff.mp (List.mem_cons_of_mem h hp1)
    have hpv : p = (idx, v) := by
      have hg := List.mem_enum_iff_getElem?.mp hpmem
      rw [hpidx, hv] at hg
      obtain ⟨p1, p2⟩ := p
      simp only at hpidx
      simp only [Option.some.injEq] at hg
      rw [hpidx, hg]
    -- the head h dominates p in the sort order
    have hsorted : (h :: t).Pairwise (fun a b => scoreDescLe a b = true) := by
      rw [← hs]; exact isort_pairwise scoreDescLe_total scoreDescLe_trans _
    have hle : scoreDescLe h p = true := (List.pairwise_cons.mp hsorted).1 p hp1
    -- h is an enumerated entry of a row other than idx, so its score is < v
    have hhm : h ∈ row.enum := hperm.mem_iff.mp (List.mem_cons_self h t)
    have hnd : (h :: t).Nodup := by
      rw [← hs]
      exact ((isort_perm scoreDescLe row.enum).nodup_iff).mpr (enum_nodup row)
    have hht : h ∉ t := (List.nodup_cons.mp hnd).1
    have hhne : h ≠ (idx, v) := by
      intro he
      exact hht (by rw [he, ← hpv]; exact hp1)
    have hhfst : h.1 ≠ idx := fun hf =>
      hhne (enum_fst_eq hhm (List.mem_enum_iff_getElem?.mpr hv) hf)
    have hlt : h.2 < v :=
      hmax h.1 h.2 (List.mem_enum_iff_getElem?.mp hhm) hhfst
    rw [hpv] at hle
    simp only [scoreDescLe, Bool.or_eq_true, decide_eq_true_eq, Bool.and_eq_true] at hle
    rcases hle with hc | ⟨hc, _⟩
    · exact absurd hc (lt_asymm hlt)
    · exact absurd hc (ne_of_lt hlt)

/-- Witness for C1: the amended statement applied to the scenario row
`[1.0, 0.2, 0.5]` (strictly maximal self-similarity at index 0), evaluated at
the concrete ranked pair `(2, 0.5)`, the head of the ranked list. -/
theorem C1_witness : ((2, mkRat 1 2) : Nat × Rat).1 ≠ 0 :=
  C1_rank_excludes_self_of_strict_max [1, mkRat 1 5, mkRat 1 2] 0 1 2 (by decide)
    (by
      intro j w hj hne
      match j with
      | 0 => exact absurd rfl hne
      | 1 =>
        have hw : w = mkRat 1 5 := by
          simp only [List.getElem?_cons_succ, List.getElem?_cons_zero,
            Option.some.injEq] at hj
          exact hj.symm
        rw [hw]; decide
      | 2 =>
        have hw : w = mkRat 1 2 := by
          simp only [List.getElem?_cons_succ, List.getElem?_cons_zero,
            Option.some.injEq] at hj
          exact hj.symm
        rw [hw]; decide
      | j + 3 => simp at hj)
    (2, mkRat 1 2) (by decide)

/-- **C5 (counterexample).** No shape check happens at load: with a
2-movie catalog and a 1×2 similarity matrix, the load block still sets both
globals (the service is "loaded"), and a recommend request whose resolved row
is outside the matrix fails with the generic 500 handler — not with the
`"Model not loaded"` degraded-mode error the claim requires. -/
theorem C5_no_shape_check_counterexample :
    loadArtifacts (some (cat2, [[1, 1]])) = (some cat2, some [[1, 1]]) ∧
    recommendMovies (some cat2) (some [[1, 1]]) ⟨"b", 5⟩ = .internalErr ∧
    RecommendResult.internalErr ≠ RecommendResult.notLoadedErr := by
  decide

/-- **C5 (amended).** The load block performs no validation: whenever both
artifacts deserialize, the service enters the loaded state regardless of
their shapes, and a shape mismatch surfaces only at request time — a resolved
row index outside the similarity matrix makes `/recommend` return the generic
internal error, not the `"Model not loaded"` error. -/
theorem C5_load_and_mismatch_behavior :
    (∀ (cat : List Movie) (sim : List (List Rat)),
      loadArtifacts (some (cat, sim)) = (some cat, some sim)) ∧
    (∀ (cat : List Movie) (sim : List (List Rat)) (req : RecommendationRequest)
      (idx : Nat) (t : String),
      findBestMovieMatch req.movie_title cat = .resolved idx t →
      sim[idx]? = none →
      recommendMovies (some cat) (some sim) req = .internalErr) := by
  refine ⟨fun _ _ => rfl, ?_⟩
  intro cat sim req idx t hfind hnone
  simp only [recommendMovies, hfind, hnone]

/-- Witness for C5: the amended statement applied at the concrete mismatched
load of `C5_no_shape_check_counterexample`. -/
theorem C5_witness :
    recommendMovies (some cat2) (some [[1, 1]]) ⟨"b", 5⟩ = .internalErr :=
  C5_load_and_mismatch_behavior.2 cat2 [[1, 1]] ⟨"b", 5⟩ 1 "B" (by decide) (by decide)

/-- Length of the descending sort of an enumerated row. -/
theorem pySortDesc_enum_length (row : List Rat) :
    (pySortDesc row.enum).length = row.length := by
  simp only [pySortDesc]
  rw [(isort_perm scoreDescLe row.enum).length_eq, List.enum_length]

/-- Every pair in the descending sort of an enumerated row has its column
index below the row length. -/
theorem pySortDesc_enum_fst_lt (row : List Rat) :
    ∀ p ∈ pySortDesc row.enum, p.1 < row.length := by
  intro p hp
  have hm : p ∈ row.enum := (isort_perm scoreDescLe row.enum).mem_iff.mp hp
  have hg := List.mem_enum_iff_getElem?.mp hm
  exact (List.getElem?_eq_some.mp hg).1

/-- **C8 (counterexample).** With catalog `cat2` (size `N = 2`) and the
all-ones matrix `sim2`, the query `"b"` resolves to row 1 and a request with
count `5 > N - 1` is clamped to a single recommendation — but that
recommendation is the movie at the resolved row itself (`{2, B}`), not the
one other movie (`{1, A}`), so the result is not "the `N - 1` other
movies". -/
theorem C8_clamp_counterexample :
    cat2.length = 2 ∧
    findBestMovieMatch "b" cat2 = .resolved 1 "B" ∧
    cat2[1]? = some ⟨2, "B"⟩ ∧
    recommendMovies (some cat2) (some sim2) ⟨"b", 5⟩ = .ok "B" [⟨2, "B", 1⟩] ∧
    (⟨2, "B", 1⟩ : Recommendation).movie_id ≠ (⟨1, "A"⟩ : Movie).movie_id := by
  decide

/-- **C8 (amended).** For every loaded catalog of size `N`, aligned matrix
row, and resolved query, a recommend request with count `≥ N` (i.e. greater
than `N - 1`) does not error: the slice is clamped and exactly `N - 1`
recommendations are returned, namely those built from the whole sorted
sequence minus its first entry (which are the `N - 1` other movies exactly
when the resolved row's self-similarity is the strict row maximum, cf. C1). -/
theorem C8_overlong_count_clamped (cat : List Movie) (sim : List (List Rat))
    (req : RecommendationRequest) (idx : Nat) (t : String) (row : List Rat)
    (hfind : findBestMovieMatch req.movie_title cat = .resolved idx t)
    (hrow : sim[idx]? = some row)
    (hlen : row.length = cat.length)
    (hcount : (cat.length : Int) ≤ req.num_recommendations) :
    ∃ recs, buildRecs cat ((pySortDesc row.enum).drop 1) = some recs ∧
      recommendMovies (some cat) (some sim) req = .ok t recs ∧
      recs.length = cat.length - 1 := by
  have hslen : (pySortDesc row.enum).length = cat.length := by
    rw [pySortDesc_enum_length, hlen]
  have hslice : pySlice (pySortDesc row.enum) 1 (req.num_recommendations + 1) =
      (pySortDesc row.enum).drop 1 :=
    pySlice_all _ _ (by rw [hslen]; exact hcount)
  have hmem : ∀ p ∈ (pySortDesc row.enum).drop 1, p.1 < cat.length := by
    intro p hp
    have := pySortDesc_enum_fst_lt row p ((List.drop_sublist _ _).subset hp)
    omega
  obtain ⟨recs, hb, hlenr⟩ := buildRecs_eq_some hmem
  refine ⟨recs, hb, ?_, ?_⟩
  · simp only [recommendMovies, hfind, hrow, hslice, hb]
  · rw [hlenr, List.length_drop, hslen]

/-- Witness for C8: the amended statement applied to the Avatar scenario
with count 5 ≥ 3 = N. -/
theorem C8_witness :
    ∃ recs, buildRecs cat3 ((pySortDesc ([1, mkRat 1 5, mkRat 1 2] : List Rat).enum).drop 1) =
        some recs ∧
      recommendMovies (some cat3) (some sim3) ⟨"avatar", 5⟩ = .ok "Avatar" recs ∧
      recs.length = cat3.length - 1 :=
  C8_overlong_count_clamped cat3 sim3 ⟨"avatar", 5⟩ 0 "Avatar"
    [1, mkRat 1 5, mkRat 1 2] (by decide) (by decide) (by decide) (by decide)

/-- **C10.** The recommend endpoint never rejects a non-positive count: with
a loaded catalog of size `N ≥ 2`, an aligned matrix row, and a resolved
query, `num_recommendations = 0` or `-1` yields a 200 response with an empty
recommendation list, and `-N < num_recommendations ≤ -2` yields a 200
response with exactly `N + num_recommendations` recommendations (the Python
slice `[1 : num+1]` with a negative end index drops the lowest-scoring
entries). -/
theorem C10_nonpositive_counts (cat : List Movie) (sim : List (List Rat))
    (req : RecommendationRequest) (idx : Nat) (t : String) (row : List Rat)
    (hfind : findBestMovieMatch req.movie_title cat = .resolved idx t)
    (hrow : sim[idx]? = some row)
    (hlen : row.length = cat.length)
    (_hN : 2 ≤ cat.length) :
    ((req.num_recommendations = 0 ∨ req.num_recommendations = -1) →
      recommendMovies (some cat) (some sim) req = .ok t []) ∧
    (-(cat.length : Int) < req.num_recommendations →
      req.num_recommendations ≤ -2 →
      ∃ recs, recommendMovies (some cat) (some sim) req = .ok t recs ∧
        (recs.length : Int) = (cat.length : Int) + req.num_recommendations) := by
  have hslen : (pySortDesc row.enum).length = cat.length := by
    rw [pySortDesc_enum_length, hlen]
  constructor
  · rintro (hz | hm)
    · have hslice : pySlice (pySortDesc row.enum) 1 (req.num_recommendations + 1) =
          ([] : List (Nat × Rat)) := by
        rw [hz]; exact pySlice_stop_one _
      simp only [recommendMovies, hfind, hrow, hslice, buildRecs]
    · have hslice : pySlice (pySortDesc row.enum) 1 (req.num_recommendations + 1) =
          ([] : List (Nat × Rat)) := by
        rw [hm]; exact pySlice_stop_zero _
      simp only [recommendMovies, hfind, hrow, hslice, buildRecs]
  · intro hlo hhi
    have hslice := pySlice_neg (pySortDesc row.enum) req.num_recommendations
      (by omega) (by rw [hslen]; omega)
    have hmem : ∀ p ∈ ((pySortDesc row.enum).take
        (((pySortDesc row.enum).length : Int) + req.num_recommendations + 1).toNat).drop 1,
        p.1 < cat.length := by
      intro p hp
      have hp1 : p ∈ pySortDesc row.enum :=
        (List.take_sublist _ _).subset ((List.drop_sublist _ _).subset hp)
      have := pySortDesc_enum_fst_lt row p hp1
      omega
    obtain ⟨recs, hb, hlenr⟩ := buildRecs_eq_some hmem
    refine ⟨recs, ?_, ?_⟩
    · simp only [recommendMovies, hfind, hrow, hslice, hb]
    · rw [hlenr]
      have htake : ((pySortDesc row.enum).take
          (((pySortDesc row.enum).length : Int) + req.num_recommendations + 1).toNat).length =
          (((pySortDesc row.enum).length : Int) + req.num_recommendations + 1).toNat := by
        rw [List.length_take]
        exact natMin_eq_left (by omega)
      rw [List.length_drop, htake, hslen]
      omega

/-- Witness for C10: both branches applied to the Avatar scenario, with
counts 0 and -2. -/
theorem C10_witness :
    recommendMovies (some cat3) (some sim3) ⟨"avatar", 0⟩ = .ok "Avatar" [] ∧
    (∃ recs, recommendMovies (some cat3) (some sim3) ⟨"avatar", -2⟩ = .ok "Avatar" recs ∧
      (recs.length : Int) = (cat3.length : Int) + (-2)) :=
  ⟨(C10_nonpositive_counts cat3 sim3 ⟨"avatar", 0⟩ 0 "Avatar"
      [1, mkRat 1 5, mkRat 1 2] (by decide) (by decide) (by decide) (by decide)).1
      (Or.inl rfl),
   (C10_nonpositive_counts cat3 sim3 ⟨"avatar", -2⟩ 0 "Avatar"
      [1, mkRat 1 5, mkRat 1 2] (by decide) (by decide) (by decide) (by decide)).2
      (by decide) (by decide)⟩

/-! ### Regex fragment vs literal containment -/

/-- On patterns containing no `'.'`, the fragment matcher is exactly literal
prefix matching. -/
theorem matchAt_eq_isPrefixOf :
    ∀ {pat : List Char}, (∀ c ∈ pat, c ≠ '.') →
    ∀ t : List Char, matchAt pat t = pat.isPrefixOf t := by
  intro pat
  induction pat with
  | nil => intro _ t; cases t <;> rfl
  | cons p ps ih =>
    intro hnd t
    cases t with
    | nil => rfl
    | cons c cs =>
      have hp : p ≠ '.' := hnd p (List.mem_cons_self p ps)
      simp only [matchAt, List.isPrefixOf, hp, if_false,
        ih (fun c hc => hnd c (List.mem_cons_of_mem p hc)) cs]

/-- On patterns free of regex metacharacters, the modelled `re.search` is
exactly literal substring containment. -/
theorem reSearch_eq_litContains {pat : List Char}
    (hplain : ∀ c ∈ pat, isRegexMeta c = false) (s : List Char) :
    reSearch pat s = litContains pat s := by
  have hnd : ∀ c ∈ pat, c ≠ '.' := by
    intro c hc he
    have := hplain c hc
    rw [he] at this
    simp [isRegexMeta] at this
  simp only [reSearch, litContains]
  induction s.tails with
  | nil => rfl
  | cons t ts ih =>
    simp only [List.any_cons, matchAt_eq_isPrefixOf hnd t, ih]

/-- **C6 (counterexample).** The search treats the query as a regular
expression, not a literal substring: on the catalog `[{1, "xy"}]` the query
`"."` matches the title `"xy"` (regex `.` matches any character) even though
`"xy"` does not contain the literal substring `"."`; the claimed behavior
would return no results. -/
theorem C6_regex_dot_counterexample :
    searchMovies [⟨1, "xy"⟩] "." 10 =
      { query := ".", results := [(1, "xy")], total_found := 1 } ∧
    litContains (pyLower ".".data) (pyLower "xy".data) = false := by
  decide

/-- **C6 (amended).** The search interprets the query as a regular
expression.  Restricted to queries whose characters include no regex
metacharacter, it returns exactly the movies whose title contains the query
case-insensitively as a literal substring, truncated to the first `limit`
such movies in catalog order (with `total_found` counting all of them). -/
theorem C6_search_literal_for_plain_queries (cat : List Movie) (q : String)
    (limit : Nat) (hplain : ∀ c ∈ pyLower q.data, isRegexMeta c = false) :
    searchMovies cat q limit =
      { query := q
        results := ((cat.filter
            (fun m => litContains (pyLower q.data) (pyLower m.title.data))).take limit).map
          (fun m => (m.movie_id, m.title))
        total_found := (cat.filter
            (fun m => litContains (pyLower q.data) (pyLower m.title.data))).length } := by
  have hf : cat.filter (fun m => reSearch (pyLower q.data) (pyLower m.title.data)) =
      cat.filter (fun m => litContains (pyLower q.data) (pyLower m.title.data)) :=
    List.filter_congr (fun m _ => reSearch_eq_litContains hplain _)
  simp only [searchMovies, hf]

/-- Witness for C6: a plain (metacharacter-free) query on the scenario
catalog. -/
theorem C6_witness :
    searchMovies cat3 "tita" 10 =
      { query := "tita"
        results := ((cat3.filter
            (fun m => litContains (pyLower "tita".data) (pyLower m.title.data))).take 10).map
          (fun m => (m.movie_id, m.title))
        total_found := (cat3.filter
            (fun m => litContains (pyLower "tita".data) (pyLower m.title.data))).length } :=
  C6_search_literal_for_plain_queries cat3 "tita" 10 (by decide)

/-- **C7.** Whenever all three resolver tiers fail, the resolver returns an
unresolved outcome whose suggestions number at most 5, each with approximate
similarity at least 0.3 to the query, ordered by non-increasing ratio (an
empty list being a valid outcome), and the recommend handler surfaces them in
the 404 payload. -/
theorem C7_suggestions_bounded_sorted (cat : List Movie) (q : String)
    (sugg : List String) (sim : List (List Rat)) (req : RecommendationRequest)
    (h : findBestMovieMatch q cat = .unresolved sugg)
    (hreq : req.movie_title = q) :
    sugg.length ≤ 5 ∧
    (∀ t ∈ sugg, mkRat 3 10 ≤ ratio t.data q.data) ∧
    sugg.Pairwise (fun t u => ratio u.data q.data ≤ ratio t.data q.data) ∧
    recommendMovies (some cat) (some sim) req =
      .notFound ("Movie " ++ squote ++ q ++ squote ++ " not found") sugg := by
  have hsugg : sugg = getCloseMatches q (cat.map (fun m => m.title)) 5 (mkRat 3 10) := by
    simp only [findBestMovieMatch] at h
    split at h
    · simp at h
    · split at h
      · simp at h
      · split at h
        · split at h
          · simp at h
          · simp at h
        · simp only [MatchResult.unresolved.injEq] at h
          exact h.symm
  have hfind : findBestMovieMatch req.movie_title cat = .unresolved sugg := by
    rw [hreq]; exact h
  have hlen : sugg.length ≤ 5 := by rw [hsugg]; exact gcm_length _ _ _ _
  refine ⟨hlen, ?_, ?_, ?_⟩
  · intro t ht
    rw [hsugg] at ht
    exact (gcm_mem ht).2
  · rw [hsugg]; exact gcm_sorted _ _ _ _
  · have htake : sugg.take 5 = sugg := List.take_of_length_le hlen
    simp only [recommendMovies, hreq, h, htake]

/-- Witness for C7: the gibberish query `"qqqq"` on a one-movie catalog
resolves to no tier and yields the empty suggestion list. -/
theorem C7_witness :
    ([] : List String).length ≤ 5 ∧
    (∀ t ∈ ([] : List String), mkRat 3 10 ≤ ratio t.data "qqqq".data) ∧
    ([] : List String).Pairwise
      (fun t u => ratio u.data "qqqq".data ≤ ratio t.data "qqqq".data) ∧
    recommendMovies (some [⟨1, "xy"⟩]) (some [[1]]) ⟨"qqqq", 5⟩ =
      .notFound ("Movie " ++ squote ++ "qqqq" ++ squote ++ " not found") [] :=
  C7_suggestions_bounded_sorted [⟨1, "xy"⟩] "qqqq" [] [[1]] ⟨"qqqq", 5⟩
    (by decide) rfl

/-- If no row satisfies a row predicate, the first-row scan returns `none`. -/
theorem tier_none_of_no_match {cat : List Movie} {p : Movie → Bool}
    (h : ∀ i : Nat, ¬ ∃ m, cat[i]? = some m ∧ p m = true) :
    firstWithIdx p cat = none := by
  rw [firstWithIdx_eq_none]
  intro m hm
  obtain ⟨i, hi⟩ := List.mem_iff_getElem?.mp hm
  cases hpm : p m with
  | false => rfl
  | true => exact absurd ⟨m, hi, hpm⟩ (h i)

/-- **C3 (counterexample).** On the catalog `[{1,"abcx"},{2,"xabc"}]` and the
query `"abcd"`, tiers 1 and 2 fail and *both* titles are acceptable tier-3
matches with the same ratio 0.75 ≥ 0.6 — yet the resolver returns row 1
(`"xabc"`, the lexicographically greatest title), not the lowest row index 0
the claim requires. -/
theorem C3_tier3_tie_prefers_lex_greatest :
    mkRat 3 5 ≤ ratio "abcx".data "abcd".data ∧
    mkRat 3 5 ≤ ratio "xabc".data "abcd".data ∧
    ratio "abcx".data "abcd".data = ratio "xabc".data "abcd".data ∧
    findBestMovieMatch "abcd" [⟨1, "abcx"⟩, ⟨2, "xabc"⟩] = .resolved 1 "xabc" := by
  decide

/-- **C3 (amended).** The resolver applies exact match, contains match (the
query interpreted as a regex, which is substring matching for
metacharacter-free queries), and approximate match with threshold 0.6, in
strict priority order, returning at the first tier that yields a result.
Tiers 1 and 2 return the lowest matching row index.  Tier 3 returns the
title maximal in the `(ratio, title)` lexicographic order — ratio ties are
broken towards the lexicographically *greatest* title, not the lowest row
index — resolved to the lowest row bearing that title. -/
theorem C3_resolver_tiers (cat : List Movie) (q : String) :
    ((∃ i, exactMatchP cat (pyStrip (pyLower q.data)) i) →
      ∃ i m, cat[i]? = some m ∧ pyLower m.title.data = pyStrip (pyLower q.data) ∧
        findBestMovieMatch q cat = .resolved i m.title ∧
        ∀ j, exactMatchP cat (pyStrip (pyLower q.data)) j → i ≤ j) ∧
    ((∀ i, ¬ exactMatchP cat (pyStrip (pyLower q.data)) i) →
      (∃ i, subMatchP cat (pyStrip (pyLower q.data)) i) →
      ∃ i m, cat[i]? = some m ∧
        reSearch (pyStrip (pyLower q.data)) (pyLower m.title.data) = true ∧
        findBestMovieMatch q cat = .resolved i m.title ∧
        ∀ j, subMatchP cat (pyStrip (pyLower q.data)) j → i ≤ j) ∧
    ((∀ i, ¬ exactMatchP cat (pyStrip (pyLower q.data)) i) →
      (∀ i, ¬ subMatchP cat (pyStrip (pyLower q.data)) i) →
      ∀ mt rest,
        getCloseMatches q (cat.map (fun m => m.title)) 1 (mkRat 3 5) = mt :: rest →
        mkRat 3 5 ≤ ratio mt.data q.data ∧
        (∀ t ∈ cat.map (fun m => m.title), mkRat 3 5 ≤ ratio t.data q.data →
          ratStrDescLe (ratio mt.data q.data, mt) (ratio t.data q.data, t) = true) ∧
        ∃ i m, cat[i]? = some m ∧ m.title = mt ∧
          findBestMovieMatch q cat = .resolved i mt ∧
          ∀ j m', j < i → cat[j]? = some m' → m'.title ≠ mt) ∧
    ((∀ i, ¬ exactMatchP cat (pyStrip (pyLower q.data)) i) →
      (∀ i, ¬ subMatchP cat (pyStrip (pyLower q.data)) i) →
      getCloseMatches q (cat.map (fun m => m.title)) 1 (mkRat 3 5) = [] →
      findBestMovieMatch q cat = .unresolved
        (getCloseMatches q (cat.map (fun m => m.title)) 5 (mkRat 3 10))) := by
  refine ⟨?_, ?_, ?_, ?_⟩
  · -- tier 1
    rintro ⟨i0, m0, hm0, he0⟩
    have hmem : m0 ∈ cat := List.mem_iff_getElem?.mpr ⟨i0, hm0⟩
    have hp0 : (fun m => pyLower m.title.data == pyStrip (pyLower q.data)) m0 = true := by
      simp only [beq_iff_eq]; exact he0
    obtain ⟨i, m, heq⟩ := @firstWithIdx_isSome Movie
      (fun m => pyLower m.title.data == pyStrip (pyLower q.data)) cat m0 hmem hp0
    obtain ⟨hgi, hpi, hmin⟩ := firstWithIdx_eq_some heq
    simp only [beq_iff_eq] at hpi
    refine ⟨i, m, hgi, hpi, ?_, ?_⟩
    · simp only [findBestMovieMatch, heq]
    · intro j hj
      obtain ⟨m', hj1, hj2⟩ := hj
      by_contra hc
      have hjlt : j < i := by omega
      have := hmin j hjlt m' hj1
      simp only [beq_iff_eq] at this
      exact absurd hj2 (by simpa using this)
  · -- tier 2
    intro hn1 hex
    have hnone1 : firstWithIdx
        (fun m => pyLower m.title.data == pyStrip (pyLower q.data)) cat = none := by
      apply tier_none_of_no_match
      intro i hi
      obtain ⟨m, h1, h2⟩ := hi
      simp only [beq_iff_eq] at h2
      exact hn1 i ⟨m, h1, h2⟩
    obtain ⟨i0, m0, hm0, he0⟩ := hex
    have hmem : m0 ∈ cat := List.mem_iff_getElem?.mpr ⟨i0, hm0⟩
    obtain ⟨i, m, heq⟩ := @firstWithIdx_isSome Movie
      (fun m => reSearch (pyStrip (pyLower q.data)) (pyLower m.title.data)) cat m0
      hmem he0
    obtain ⟨hgi, hpi, hmin⟩ := firstWithIdx_eq_some heq
    refine ⟨i, m, hgi, hpi, ?_, ?_⟩
    · simp only [findBestMovieMatch, hnone1, heq]
    · intro j hj
      obtain ⟨m', hj1, hj2⟩ := hj
      by_contra hc
      have hjlt : j < i := by omega
      have := hmin j hjlt m' hj1
      rw [this] at hj2
      cases hj2
  · -- tier 3
    intro hn1 hn2 mt rest hg
    have hnone1 : firstWithIdx
        (fun m => pyLower m.title.data == pyStrip (pyLower q.data)) cat = none := by
      apply tier_none_of_no_match
      intro i hi
      obtain ⟨m, h1, h2⟩ := hi
      simp only [beq_iff_eq] at h2
      exact hn1 i ⟨m, h1, h2⟩
    have hnone2 : firstWithIdx
        (fun m => reSearch (pyStrip (pyLower q.data)) (pyLower m.title.data)) cat =
        none := by
      apply tier_none_of_no_match
      intro i hi
      obtain ⟨m, h1, h2⟩ := hi
      exact hn2 i ⟨m, h1, h2⟩
    obtain ⟨hposs, hcut, hdom⟩ := gcm_head hg
    refine ⟨hcut, hdom, ?_⟩
    obtain ⟨m0, hm0, ht0⟩ := List.mem_map.mp hposs
    have hp0 : (fun m => m.title == mt) m0 = true := by
      simp only [beq_iff_eq]; exact ht0
    obtain ⟨i, m, heq⟩ := @firstWithIdx_isSome Movie
      (fun m => m.title == mt) cat m0 hm0 hp0
    obtain ⟨hgi, hpi, hmin⟩ := firstWithIdx_eq_some heq
    simp only [beq_iff_eq] at hpi
    refine ⟨i, m, hgi, hpi, ?_, ?_⟩
    · simp only [findBestMovieMatch, hnone1, hnone2, hg, heq]
    · intro j m' hjlt hj1 hj2
      have := hmin j hjlt m' hj1
      simp only [beq_iff_eq] at this
      exact absurd hj2 (by simpa using this)
  · -- no tier matches
    intro hn1 hn2 hg
    have hnone1 : firstWithIdx
        (fun m => pyLower m.title.data == pyStrip (pyLower q.data)) cat = none := by
      apply tier_none_of_no_match
      intro i hi
      obtain ⟨m, h1, h2⟩ := hi
      simp only [beq_iff_eq] at h2
      exact hn1 i ⟨m, h1, h2⟩
    have hnone2 : firstWithIdx
        (fun m => reSearch (pyStrip (pyLower q.data)) (pyLower m.title.data)) cat =
        none := by
      apply tier_none_of_no_match
      intro i hi
      obtain ⟨m, h1, h2⟩ := hi
      exact hn2 i ⟨m, h1, h2⟩
    simp only [findBestMovieMatch, hnone1, hnone2, hg]

/-- Witness for C3: the tier-1 branch applied to the scenario catalog and the
query `"avatar"` (an exact case-insensitive match at row 0). -/
theorem C3_witness :
    ∃ i m, cat3[i]? = some m ∧
      pyLower m.title.data = pyStrip (pyLower "avatar".data) ∧
      findBestMovieMatch "avatar" cat3 = .resolved i m.title ∧
      ∀ j, exactMatchP cat3 (pyStrip (pyLower "avatar".data)) j → i ≤ j :=
  (C3_resolver_tiers cat3 "avatar").1 ⟨0, ⟨1, "Avatar"⟩, by decide, by decide⟩

end MovieRec
